import Mathlib

/-!
# Verification of the Nested Schema Flattening Engine

A shallow embedding of `core/flatten.py` (the Analyticsphere/flattener
repository): the compound-type-string parser and field extractor
(`extract_struct_fields`), SQL-value escaping (`escape_sql_value`), accessor
construction (`build_sql_path`), and the per-field projection / indicator
expansion / statement assembly performed by
`create_flattening_select_statement`.

Python strings are modelled as `List Char`.  The two external collaborators
(schema introspection and discovery-query execution, both performed by the
query engine) enter as explicit parameters: the schema as a list of
`(column_name, column_type)` pairs, and discovery as an oracle
`Str → Except Unit (List Str)` returning the value list of the distinct-value
query, or an error when that query fails.
-/

set_option maxRecDepth 40000

namespace Flattener

/-- Python `str` modelled as a list of characters. -/
abbrev Str := List Char

/-- Whitespace recognised by Python `str.strip()` and the regex class
`\s` (restricted to the ASCII range, which covers DuckDB type strings). -/
def pyWS (c : Char) : Bool :=
  c = ' ' || c = '\t' || c = '\n' || c = '\r' || c = '\x0b' || c = '\x0c'

/-- Leading-whitespace removal (`str.lstrip`). -/
def lstrip (s : Str) : Str := s.dropWhile pyWS

/-- Trailing-whitespace removal (`str.rstrip`). -/
def rstrip (s : Str) : Str := (s.reverse.dropWhile pyWS).reverse

/-- Python `str.strip()`. -/
def pystrip (s : Str) : Str := rstrip (lstrip s)

/-- Boolean list-prefix test. -/
def isPrefixB : Str → Str → Bool
  | [], _ => true
  | _ :: _, [] => false
  | a :: as, b :: bs => a = b && isPrefixB as bs

/-- Python substring containment `needle in hay`. -/
def isSubstr (needle : Str) : Str → Bool
  | [] => isPrefixB needle []
  | c :: rest => isPrefixB needle (c :: rest) || isSubstr needle rest

/-- Python `str.strip('"')`: remove leading and trailing double quotes. -/
def stripQuotes (s : Str) : Str :=
  ((s.dropWhile (· = '"')).reverse.dropWhile (· = '"')).reverse

/-- Python `sep.join(parts)`. -/
def joinStr (sep : Str) : List Str → Str
  | [] => []
  | [x] => x
  | x :: y :: rest => x ++ sep ++ joinStr sep (y :: rest)

/-! ## Constants (`core/constants.py`) -/

/-- `constants.IGNORE_FIELDS`. -/
def IGNORE_FIELDS : List Str :=
  ["__key__".data, "__error__".data, "__has_error__".data, "treeJSON".data,
   "namespace".data, "app".data, "path".data, "kind".data, "name".data,
   "id".data, "COMPLETED".data, "COMPLETED_TS".data, "sha".data,
   "569151507".data, "D_726699695_V2".data, "Module2".data, "undefined".data,
   "key".data, "query".data, "D_726699695".data, "D_299215535".data,
   "D_166676176".data]

/-- `constants.SPECIAL_LOGIC_FIELDS.D_470862706.value`. -/
def D_470862706 : Str := "D_470862706".data

/-- `constants.SPECIAL_LOGIC_FIELDS.d_110349197.value`. -/
def d_110349197 : Str := "d_110349197".data

/-- `constants.SPECIAL_LOGIC_FIELDS.d_543608829.value`. -/
def d_543608829 : Str := "d_543608829".data

/-! ## The compound-type-string parser (`extract_struct_fields`) -/

/-- `re.match(r'^STRUCT\((.*)\)', s)`: requires the literal prefix
`STRUCT(`; `.*` is greedy and does not cross a newline, so the captured
group is everything up to the last `)` inside the first line of the
remainder.  Returns the captured group; trailing text after that `)` is
ignored (the regex is not anchored at the end). -/
def structMatch (s : Str) : Option Str :=
  if isPrefixB "STRUCT(".data s then
    match ((s.drop 7).takeWhile (· ≠ '\n')).reverse.dropWhile (· ≠ ')') with
    | [] => none
    | _ :: gRev => some gRev.reverse
  else none

/-- Worker for `split_top_level_fields`: walks the characters tracking the
parenthesis depth, splitting at top-level commas; stripped pieces are
appended at every top-level comma (even when empty), the final piece only
when non-empty after stripping. -/
def splitTLFGo : Str → Int → Str → List Str → List Str
  | [], _, current, acc =>
      if pystrip current ≠ [] then acc ++ [pystrip current] else acc
  | c :: rest, lvl, current, acc =>
      if c = '(' then splitTLFGo rest (lvl + 1) (current ++ [c]) acc
      else if c = ')' then splitTLFGo rest (lvl - 1) (current ++ [c]) acc
      else if c = ',' ∧ lvl = 0 then splitTLFGo rest lvl [] (acc ++ [pystrip current])
      else splitTLFGo rest lvl (current ++ [c]) acc

/-- `split_top_level_fields` from `extract_struct_fields`. -/
def split_top_level_fields (content : Str) : List Str :=
  splitTLFGo content 0 [] []

/-- Characters of the regex class `[a-zA-Z0-9_"]`. -/
def isNameChar (c : Char) : Bool := c.isAlphanum || c = '_' || c = '"'

/-- `re.match(r'([a-zA-Z0-9_"]+)\s+(.*)', field)`: a maximal non-empty run
of name characters, at least one whitespace character, then the rest of the
line.  Returns `(group1, group2)`. -/
def fieldMatch (field : Str) : Option (Str × Str) :=
  let nm := field.takeWhile isNameChar
  let rest := field.drop nm.length
  if nm = [] then none
  else
    let ws := rest.takeWhile pyWS
    if ws = [] then none
    else some (nm, (rest.drop ws.length).takeWhile (· ≠ '\n'))

/-- `any(ignore in field_name for ignore in constants.IGNORE_FIELDS)`. -/
def ignoredName (nm : Str) : Bool :=
  IGNORE_FIELDS.any (fun ig => isSubstr ig nm)

/-- Line 237 of `flatten.py`:
`any(ignore in part for part in field_path for ignore in constants.IGNORE_FIELDS)`. -/
def pathIgnored (p : List Str) : Bool :=
  p.any (fun part => IGNORE_FIELDS.any (fun ig => isSubstr ig part))

/-- Fuel-indexed embedding of `extract_struct_fields(schema_str, parent_path)`.
The fuel only serves to make the recursion structural; `extract_fuel_sufficient`
below shows any fuel of at least `schema_str.length` computes the same result,
because each recursive call is on a strictly shorter string.  At fuel `0` the
string is returned as a scalar leaf, which agrees with the unfuelled function
because fuel `0` forces `schema_str = []`, which never matches `STRUCT(`. -/
def extractFuel : Nat → Str → List Str → List (Str × List Str)
  | 0, schema_str, parent_path => [(pystrip schema_str, parent_path)]
  | fuel + 1, schema_str, parent_path =>
    match structMatch (pystrip schema_str) with
    | none => [(pystrip schema_str, parent_path)]
    | some content =>
      ((split_top_level_fields content).map (fun field =>
        match fieldMatch field with
        | none => []
        | some (nameRaw, g2) =>
          let field_name := stripQuotes nameRaw
          if ignoredName field_name then []
          else
            let field_type := pystrip g2
            if isPrefixB "STRUCT".data field_type then
              extractFuel fuel field_type (parent_path ++ [field_name])
            else
              [(field_type, parent_path ++ [field_name])])).flatten

/-- `extract_struct_fields(schema_str, parent_path)` from `flatten.py`. -/
def extract_struct_fields (schema_str : Str) (parent_path : List Str) :
    List (Str × List Str) :=
  extractFuel schema_str.length schema_str parent_path

/-! ## String helpers of the projection builder -/

/-- Worker for `pyReplace`: the `Nat` argument skips the tail of an
occurrence that has just been replaced (its first character was consumed by
the pattern match), so occurrences are consumed left to right without
overlap, exactly as Python `str.replace`. -/
def pyReplaceGo (old new : Str) : Nat → Str → Str
  | _, [] => []
  | skip + 1, _ :: rest => pyReplaceGo old new skip rest
  | 0, c :: rest =>
      if old ≠ [] ∧ isPrefixB old (c :: rest) = true then
        new ++ pyReplaceGo old new (old.length - 1) rest
      else
        c :: pyReplaceGo old new 0 rest

/-- Python `s.replace(old, new)` (all occurrences, left to right,
non-overlapping). -/
def pyReplace (old new s : Str) : Str := pyReplaceGo old new 0 s

/-- `escape_sql_value(val)` from `flatten.py` for a non-`None` value:
`str(val).replace("\\", "\\\\").replace("'", "''").replace('"', '\\"')`. -/
def escape_sql_value (val : Str) : Str :=
  pyReplace "\"".data "\\\"".data
    (pyReplace "'".data "''".data
      (pyReplace "\\".data "\\\\".data val))

/-- Characters of the regex class `\w` (ASCII range): letters, digits and
underscore. -/
def isWordChar (c : Char) : Bool := c.isAlphanum || c = '_'

/-- Worker for `sanitizeVal`; the flag records whether the previous
character belonged to a non-word run already replaced by `_`. -/
def sanitizeGo : Bool → Str → Str
  | _, [] => []
  | inRun, c :: rest =>
      if isWordChar c then c :: sanitizeGo false rest
      else if inRun then sanitizeGo true rest
      else '_' :: sanitizeGo true rest

/-- `re.sub(r'\W+', '_', str(val))` from `flatten.py`: every maximal run of
non-word characters becomes a single underscore. -/
def sanitizeVal (s : Str) : Str := sanitizeGo false s

/-- The spec's wording of the sanitisation rule ("every run of
non-alphanumeric characters replaced by a single underscore"), kept separate
so it can be compared with the source's `\W+` rule, which treats `_` as a
word character. -/
def specSanitizeGo : Bool → Str → Str
  | _, [] => []
  | inRun, c :: rest =>
      if c.isAlphanum then c :: specSanitizeGo false rest
      else if inRun then specSanitizeGo true rest
      else '_' :: specSanitizeGo true rest

/-- Spec-side sanitisation (runs of non-alphanumeric characters). -/
def specSanitize (s : Str) : Str := specSanitizeGo false s

/-! ## `build_sql_path` and alias construction -/

/-- Wrap a path segment in double quotes. -/
def quoteSeg (part : Str) : Str := '"' :: (part ++ ['"'])

/-- One iteration of the loop in `build_sql_path`: position `i` in the path
together with the segment decides quoting.  A segment starting with
`D_470862706[` is used as-is; the first segment is used as-is when it
already carries bracket notation; everything else is quoted. -/
def sqlPart (i : Nat) (part : Str) : Str :=
  if isPrefixB (D_470862706 ++ "[".data) part then part
  else if i = 0 then
    if part.contains '[' ∧ part.contains ']' then part else quoteSeg part
  else quoteSeg part

/-- `build_sql_path(field_path)` from `flatten.py`. -/
def build_sql_path (field_path : List Str) : Str :=
  if field_path = [] then []
  else joinStr ".".data (field_path.enum.map (fun ip => sqlPart ip.1 ip.2))

/-- The alias computed at lines 243-252 of `flatten.py`: path segments
joined by `_`, bracket characters removed, and — when the cosmetic marker
`_entity_` occurs — every occurrence of `_entity` removed. -/
def mkAlias (field_path : List Str) : Str :=
  let a1 := joinStr "_".data field_path
  let a2 := pyReplace "]".data [] (pyReplace "[".data [] a1)
  if isSubstr "_entity_".data a2 then pyReplace "_entity".data [] a2 else a2

/-! ## The projection pipeline (`create_flattening_select_statement`) -/

/-- A generated output column: the full SQL expression appended to
`select_exprs` (first component) together with the alias it carries
(second component, a projection of the same construction kept for stating
alias properties). -/
def plainCol (sql_path colAlias : Str) : Str × Str :=
  ("CAST(".data ++ sql_path ++ " AS STRING) AS \"".data ++ colAlias ++ "\"".data,
   colAlias)

/-- One binary indicator column for a discovered value `val` (lines 278-288
of `flatten.py`). -/
def indicatorCol (sql_path colAlias val : Str) : Str × Str :=
  let safe_val := sanitizeVal val
  let new_col_name := colAlias ++ "_D_".data ++ safe_val
  let escaped_val := escape_sql_value val
  ("CAST(IFNULL(CAST(array_contains(".data ++ sql_path ++ ", '".data ++
     escaped_val ++ "') AS INTEGER), 0) AS STRING) AS \"".data ++
     new_col_name ++ "\"".data,
   new_col_name)

/-- The columns contributed by one extracted leaf `(field_type, field_path)`
in the loop at lines 226-298 of `flatten.py`.  `disc` is the
discovery-query collaborator: given the accessor expression it returns the
value list of the distinct-value query, or an error when that query raises.
A path with an ignored segment contributes nothing; a `VARCHAR[]` leaf not
exempted via `d_110349197`/`d_543608829` is expanded into one indicator per
returned value, falling back to a single cast column under the original
alias when discovery fails; every other leaf yields a single cast column. -/
def leafCols (disc : Str → Except Unit (List Str))
    (field_type : Str) (field_path : List Str) : List (Str × Str) :=
  if pathIgnored field_path then []
  else
    let sql_path := build_sql_path field_path
    let colAlias := mkAlias field_path
    if field_type = "VARCHAR[]".data ∧ d_110349197 ∉ field_path ∧
        d_543608829 ∉ field_path then
      match disc sql_path with
      | .ok distinct_vals =>
          distinct_vals.map (fun val => indicatorCol sql_path colAlias val)
      | .error _ => [plainCol sql_path colAlias]
    else [plainCol sql_path colAlias]

/-- The accumulation of `select_exprs` over the schema rows (the two nested
`for` loops of `create_flattening_select_statement`): a column whose name is
exactly in `IGNORE_FIELDS` is skipped; otherwise its extracted leaves each
append their column group. -/
def selectColsLoop (disc : Str → Except Unit (List Str))
    (schema : List (Str × Str)) : List (Str × Str) :=
  schema.foldl (fun acc nt =>
    if nt.1 ∈ IGNORE_FIELDS then acc
    else
      (extract_struct_fields nt.2 [nt.1]).foldl
        (fun acc2 ftp => acc2 ++ leafCols disc ftp.1 ftp.2) acc) []

/-- The generated SQL expressions, in order. -/
def selectExprs (disc : Str → Except Unit (List Str))
    (schema : List (Str × Str)) : List Str :=
  (selectColsLoop disc schema).map Prod.fst

/-- The aliases of the generated columns, in order. -/
def selectAliases (disc : Str → Except Unit (List Str))
    (schema : List (Str × Str)) : List Str :=
  (selectColsLoop disc schema).map Prod.snd

/-- `create_flattening_select_statement`: `None` when every leaf was
filtered out, otherwise the single `SELECT ... FROM read_parquet(...)`
statement text (whitespace as in the source's f-string). -/
def create_flattening_select_statement
    (disc : Str → Except Unit (List Str))
    (schema : List (Str × Str)) (parquet_path : Str) : Option Str :=
  let select_exprs := selectExprs disc schema
  if select_exprs = [] then none
  else
    some ("\n                    SELECT\n                    ".data ++
      joinStr ", ".data select_exprs ++
      "\n                    FROM read_parquet('".data ++ parquet_path ++
      "')\n                ".data)

/-- A discovery collaborator that always fails. -/
def discFail : Str → Except Unit (List Str) := fun _ => .error ()

/-- A discovery collaborator that returns the same value list for every
accessor. -/
def discConst (vals : List Str) : Str → Except Unit (List Str) :=
  fun _ => .ok vals

/-- Pairwise distinctness of a list of strings, as a boolean. -/
def allDiffStr : List Str → Bool
  | [] => true
  | x :: xs => xs.all (fun y => decide (x ≠ y)) && allDiffStr xs

/-! ## Modelled collaborator: the distinct-value discovery query -/

/-- Modelled from the spec (section 6, "Discovery query execution", and the
indicator-expander algorithm): the integer-coercibility filter
`TRY_CAST(val AS BIGINT) IS NOT NULL` in the discovery query text built by
`create_flattening_select_statement` is executed by the external query
engine, which is not part of this repository.  A string coerces when, after
stripping surrounding whitespace, it is an optional sign followed by at
least one digit. -/
def tryCastBigint (s : Str) : Bool :=
  let t := pystrip s
  let core := if isPrefixB "+".data t || isPrefixB "-".data t then t.drop 1 else t
  !core.isEmpty && core.all Char.isDigit

/-- Modelled from the spec (section 6): the discovery collaborator for a
column whose distinct unnested non-null values are `cand`: the query
returns them filtered to the integer-coercible ones, in order. -/
def discoveryOracle (cand : List Str) : Str → Except Unit (List Str) :=
  fun _ => .ok (cand.filter tryCastBigint)

/-! ## Predicates used in the alias-uniqueness analysis -/

/-- A clean path segment for the alias-uniqueness analysis: non-empty and
free of underscores and brackets. -/
def goodSeg (seg : Str) : Bool :=
  !seg.isEmpty &&
    seg.all (fun c => decide (c ≠ '_') && decide (c ≠ '[') && decide (c ≠ ']'))

/-- The (quote-stripped) names of the sibling fields parsed from the
interior of a struct. -/
def fieldNames (content : Str) : List Str :=
  (split_top_level_fields content).filterMap
    (fun field => (fieldMatch field).map (fun nf => stripQuotes nf.1))

/-- "No two sibling fields at the same depth have identical names", stated
recursively over the type string along the parser's own recursion (same
fuel discipline as `extractFuel`). -/
def siblingsOKFuel : Nat → Str → Bool
  | 0, _ => true
  | fuel + 1, s =>
    match structMatch (pystrip s) with
    | none => true
    | some content =>
      allDiffStr (fieldNames content) &&
      (split_top_level_fields content).all (fun field =>
        match fieldMatch field with
        | none => true
        | some nf =>
          if isPrefixB "STRUCT".data (pystrip nf.2) then
            siblingsOKFuel fuel (pystrip nf.2)
          else true)

/-- Sibling-name distinctness at every depth of a type string. -/
def siblingsOK (s : Str) : Bool := siblingsOKFuel s.length s

/-! ## State-instrumented extractor (mutable default argument) -/

/-- State-instrumented embedding of `extract_struct_fields` for the
mutable-default-argument analysis: Python evaluates the default `[]` once,
so every call that omits `parent_path` shares a single list object.  `dflt`
is the current contents of that shared object and `arg` the explicitly
passed argument (`none` = defaulted).  The body mirrors the source: the
only operation performed on `parent_path` is `parent_path + [field_name]`,
which builds a new list, and the recursive call always passes an explicit
argument; the shared object is threaded through and returned, so a mutation
of it, had the source performed one, would be visible in the result. -/
def extractStFuel : Nat → Str → Option (List Str) → List Str →
    (List (Str × List Str)) × List Str
  | 0, schema_str, arg, dflt => ([(pystrip schema_str, arg.getD dflt)], dflt)
  | fuel + 1, schema_str, arg, dflt =>
    let parent_path := arg.getD dflt
    match structMatch (pystrip schema_str) with
    | none => ([(pystrip schema_str, parent_path)], dflt)
    | some content =>
      (split_top_level_fields content).foldl (fun acc field =>
        match fieldMatch field with
        | none => acc
        | some (nameRaw, g2) =>
          let field_name := stripQuotes nameRaw
          if ignoredName field_name then acc
          else
            let field_type := pystrip g2
            if isPrefixB "STRUCT".data field_type then
              let r := extractStFuel fuel field_type
                (some (parent_path ++ [field_name])) acc.2
              (acc.1 ++ r.1, r.2)
            else (acc.1 ++ [(field_type, parent_path ++ [field_name])], acc.2))
        ([], dflt)

/-- One call of `extract_struct_fields` in the state-instrumented model. -/
def extract_run (schema_str : Str) (arg : Option (List Str))
    (dflt : List Str) : (List (Str × List Str)) × List Str :=
  extractStFuel schema_str.length schema_str arg dflt

/-! ## Concrete evaluations of the embedding -/

example :
    extract_struct_fields "STRUCT(a VARCHAR, b STRUCT(c VARCHAR[]))".data ["t".data] =
      [("VARCHAR".data, ["t".data, "a".data]),
       ("VARCHAR[]".data, ["t".data, "b".data, "c".data])] := by decide

example :
    extract_struct_fields "STRUCT(a VARCHAR".data ["x".data] =
      [("STRUCT(a VARCHAR".data, ["x".data])] := by decide

example :
    extract_struct_fields "STRUCT(a VARCHAR)[]".data ["c".data] =
      [("VARCHAR".data, ["c".data, "a".data])] := by decide

example :
    extract_struct_fields "STRUCT(a VARCHAR, sha STRUCT(b VARCHAR))".data ["t".data] =
      [("VARCHAR".data, ["t".data, "a".data])] := by decide

example :
    build_sql_path ["D_470862706".data, "entity".data, "D_129584832".data] =
      "\"D_470862706\".\"entity\".\"D_129584832\"".data := by decide

example :
    build_sql_path [("D_470862706[1]").data, "D_129584832".data] =
      "D_470862706[1].\"D_129584832\"".data := by decide

example :
    mkAlias ["D_470862706".data, "entity".data, "D_129584832".data] =
      "D_470862706_D_129584832".data := by decide

example :
    selectExprs discFail [("t".data, "STRUCT(a VARCHAR)".data)] =
      ["CAST(\"t\".\"a\" AS STRING) AS \"t_a\"".data] := by decide

example :
    selectExprs (discConst ["5".data, "9".data])
        [("t".data, "STRUCT(b STRUCT(c VARCHAR[]))".data)] =
      ["CAST(IFNULL(CAST(array_contains(\"t\".\"b\".\"c\", '5') AS INTEGER), 0) AS STRING) AS \"t_b_c_D_5\"".data,
       "CAST(IFNULL(CAST(array_contains(\"t\".\"b\".\"c\", '9') AS INTEGER), 0) AS STRING) AS \"t_b_c_D_9\"".data] := by
  decide

example :
    selectExprs discFail [("t".data, "STRUCT(b STRUCT(c VARCHAR[]))".data)] =
      ["CAST(\"t\".\"b\".\"c\" AS STRING) AS \"t_b_c\"".data] := by decide

/-! ## List helper lemmas -/

theorem mem_takeWhile_imp {p : Char → Bool} {c : Char} :
    ∀ {l : Str}, c ∈ l.takeWhile p → p c = true ∧ c ∈ l := by
  intro l h
  induction l with
  | nil => simp [List.takeWhile] at h
  | cons x t ih =>
    rw [List.takeWhile_cons] at h
    by_cases hx : p x = true
    · simp [hx] at h
      rcases h with h | h
      · subst h; exact ⟨hx, List.mem_cons_self _ _⟩
      · rcases ih h with ⟨h1, h2⟩; exact ⟨h1, List.mem_cons_of_mem _ h2⟩
    · simp [Bool.not_eq_true] at hx
      simp [hx] at h

theorem takeWhile_append_all {p : Char → Bool} :
    ∀ {u : Str} (v : Str), (∀ c ∈ u, p c = true) →
      (u ++ v).takeWhile p = u ++ v.takeWhile p := by
  intro u
  induction u with
  | nil => intro v _; simp
  | cons x t ih =>
    intro v h
    have hx : p x = true := h x (List.mem_cons_self _ _)
    simp only [List.cons_append, List.takeWhile_cons, hx, if_true]
    rw [ih v (fun c hc => h c (List.mem_cons_of_mem _ hc))]

theorem takeWhile_eq_self_of_all {p : Char → Bool} {l : Str}
    (h : ∀ c ∈ l, p c = true) : l.takeWhile p = l := by
  have := takeWhile_append_all (u := l) [] h
  simpa using this

theorem dropWhile_append_all {p : Char → Bool} :
    ∀ {u : Str} (v : Str), (∀ c ∈ u, p c = true) →
      (u ++ v).dropWhile p = v.dropWhile p := by
  intro u
  induction u with
  | nil => intro v _; simp
  | cons x t ih =>
    intro v h
    have hx : p x = true := h x (List.mem_cons_self _ _)
    simp only [List.cons_append, List.dropWhile_cons, hx, if_true]
    exact ih v (fun c hc => h c (List.mem_cons_of_mem _ hc))

theorem dropWhile_eq_nil_of_all {p : Char → Bool} {l : Str}
    (h : ∀ c ∈ l, p c = true) : l.dropWhile p = [] := by
  have := dropWhile_append_all (u := l) [] h
  simpa using this

theorem dropWhile_append_cons_neg {p : Char → Bool} {c : Char}
    (hc : p c = false) :
    ∀ (u w : Str), (u ++ c :: w).dropWhile p = u.dropWhile p ++ c :: w := by
  intro u
  induction u with
  | nil => intro w; simp [List.dropWhile_cons, hc]
  | cons x t ih =>
    intro w
    simp only [List.cons_append, List.dropWhile_cons]
    by_cases hx : p x = true
    · simp [hx, ih w]
    · simp [Bool.not_eq_true] at hx
      simp [hx]

theorem mem_of_mem_pystrip {c : Char} {s : Str} (h : c ∈ pystrip s) : c ∈ s := by
  unfold pystrip rstrip lstrip at h
  have h1 := (List.dropWhile_sublist (l := (s.dropWhile pyWS).reverse) pyWS).mem
    (List.mem_reverse.mp h)
  have h2 := List.mem_reverse.mp h1
  exact (List.dropWhile_sublist (l := s) pyWS).mem h2

theorem mem_pystrip_of_not_ws {c : Char} {s : Str}
    (h : c ∈ s) (hc : pyWS c = false) : c ∈ pystrip s := by
  have step : ∀ (l : Str), c ∈ l → c ∈ l.dropWhile pyWS := by
    intro l hl
    induction l with
    | nil => simp at hl
    | cons x t ih =>
      rw [List.dropWhile_cons]
      by_cases hx : pyWS x = true
      · simp only [hx, if_true]
        rcases List.mem_cons.mp hl with h' | h'
        · subst h'; rw [hc] at hx; exact absurd hx (by simp)
        · exact ih h'
      · simp [Bool.not_eq_true] at hx
        simp [hx, hl]
  unfold pystrip rstrip lstrip
  exact List.mem_reverse.mpr (step _ (List.mem_reverse.mpr (step _ h)))

theorem isPrefixB_append (u : Str) : ∀ (w : Str), isPrefixB u (u ++ w) = true := by
  induction u with
  | nil => intro w; rfl
  | cons x t ih => intro w; simp [isPrefixB, ih w]

theorem isPrefixB_mem {u : Str} : ∀ {v : Str}, isPrefixB u v = true →
    ∀ c ∈ u, c ∈ v := by
  induction u with
  | nil => intro v _ c hc; simp at hc
  | cons x t ih =>
    intro v h c hc
    cases v with
    | nil => simp [isPrefixB] at h
    | cons y w =>
      simp only [isPrefixB, Bool.and_eq_true, decide_eq_true_eq] at h
      rcases List.mem_cons.mp hc with h' | h'
      · subst h'; rw [h.1]; exact List.mem_cons_self _ _
      · exact List.mem_cons_of_mem _ (ih h.2 c h')

theorem allDiff_iff_pairwise : ∀ {l : List Str},
    allDiffStr l = true ↔ List.Pairwise (· ≠ ·) l := by
  intro l
  induction l with
  | nil => simp [allDiffStr]
  | cons x t ih =>
    simp only [allDiffStr, Bool.and_eq_true, List.all_eq_true,
      decide_eq_true_eq, List.pairwise_cons]
    exact and_congr Iff.rfl ih

/-! ## Length bounds: each recursive call of the extractor is on a strictly
shorter string, so fuel `schema_str.length` always suffices. -/

theorem pystrip_length_le (s : Str) : (pystrip s).length ≤ s.length := by
  unfold pystrip rstrip lstrip
  calc (((s.dropWhile pyWS).reverse.dropWhile pyWS).reverse).length
      = ((s.dropWhile pyWS).reverse.dropWhile pyWS).length := List.length_reverse _
    _ ≤ (s.dropWhile pyWS).reverse.length :=
        (List.dropWhile_sublist pyWS).length_le
    _ = (s.dropWhile pyWS).length := List.length_reverse _
    _ ≤ s.length := (List.dropWhile_sublist pyWS).length_le

theorem structMatch_length {s content : Str} (h : structMatch s = some content) :
    content.length + 8 ≤ s.length := by
  unfold structMatch at h
  by_cases hp : isPrefixB "STRUCT(".data s = true
  · simp only [hp, if_true] at h
    rcases hm : ((s.drop 7).takeWhile (· ≠ '\n')).reverse.dropWhile (· ≠ ')') with
      _ | ⟨x, gRev⟩
    · rw [hm] at h; exact absurd h (by simp)
    · rw [hm] at h
      simp only [Option.some.injEq] at h
      have hlen1 : (x :: gRev).length ≤
          ((s.drop 7).takeWhile (· ≠ '\n')).reverse.length := by
        rw [← hm]; exact (List.dropWhile_sublist _).length_le
      have hlen2 : ((s.drop 7).takeWhile (· ≠ '\n')).length ≤ (s.drop 7).length :=
        (List.takeWhile_sublist _).length_le
      have hlen3 : (s.drop 7).length = s.length - 7 := List.length_drop 7 s
      rw [List.length_reverse] at hlen1
      have : content.length = gRev.length := by rw [← h, List.length_reverse]
      simp only [List.length_cons] at hlen1
      omega
  · simp only [Bool.not_eq_true] at hp
    rw [hp] at h
    exact absurd h (by simp)

theorem splitTLFGo_mem_length :
    ∀ (rest : Str) (lvl : Int) (current : Str) (acc : List Str) (piece : Str),
      piece ∈ splitTLFGo rest lvl current acc →
      piece ∈ acc ∨ piece.length ≤ current.length + rest.length := by
  intro rest
  induction rest with
  | nil =>
    intro lvl current acc piece h
    unfold splitTLFGo at h
    by_cases hc : pystrip current = []
    · rw [if_neg (by simp [hc])] at h
      exact Or.inl h
    · rw [if_pos hc] at h
      rcases List.mem_append.mp h with h' | h'
      · exact Or.inl h'
      · right
        simp only [List.mem_singleton] at h'
        subst h'
        have := pystrip_length_le current
        simp only [List.length_nil]
        omega
  | cons c t ih =>
    intro lvl current acc piece h
    unfold splitTLFGo at h
    by_cases h1 : c = '('
    · simp only [h1, if_true] at h
      rcases ih _ _ _ _ h with h' | h'
      · exact Or.inl h'
      · right; simp only [List.length_append, List.length_cons,
          List.length_nil] at h' ⊢; omega
    · simp only [h1, if_false] at h
      by_cases h2 : c = ')'
      · simp only [h2, if_true] at h
        rcases ih _ _ _ _ h with h' | h'
        · exact Or.inl h'
        · right; simp only [List.length_append, List.length_cons,
            List.length_nil] at h' ⊢; omega
      · simp only [h2, if_false] at h
        by_cases h3 : c = ',' ∧ lvl = 0
        · simp only [h3, if_true] at h
          rcases ih _ _ _ _ h with h' | h'
          · rcases List.mem_append.mp h' with h'' | h''
            · exact Or.inl h''
            · right
              simp only [List.mem_singleton] at h''
              subst h''
              have := pystrip_length_le current
              simp only [List.length_cons, List.length_nil]
              omega
          · right
            simp only [List.length_nil] at h'
            simp only [List.length_cons, List.length_nil]
            omega
        · simp only [h3, if_false] at h
          rcases ih _ _ _ _ h with h' | h'
          · exact Or.inl h'
          · right; simp only [List.length_append, List.length_cons,
              List.length_nil] at h' ⊢; omega

theorem split_top_level_fields_length {content piece : Str}
    (h : piece ∈ split_top_level_fields content) :
    piece.length ≤ content.length := by
  rcases splitTLFGo_mem_length content 0 [] [] piece h with h' | h'
  · simp at h'
  · simpa using h'

theorem fieldMatch_length {field nm g2 : Str}
    (h : fieldMatch field = some (nm, g2)) : g2.length + 2 ≤ field.length := by
  unfold fieldMatch at h
  by_cases h1 : field.takeWhile isNameChar = []
  · simp only [h1, if_true] at h; exact absurd h (by simp)
  · simp only [h1, if_false] at h
    by_cases h2 : (field.drop (field.takeWhile isNameChar).length).takeWhile pyWS = []
    · simp only [h2, if_true] at h; exact absurd h (by simp)
    · simp only [h2, if_false, Option.some.injEq, Prod.mk.injEq] at h
      have hnm : 1 ≤ (field.takeWhile isNameChar).length :=
        List.length_pos.mpr h1
      have hws : 1 ≤ ((field.drop (field.takeWhile isNameChar).length).takeWhile
          pyWS).length := List.length_pos.mpr h2
      have hTW : (field.takeWhile isNameChar).length ≤ field.length :=
        (List.takeWhile_sublist _).length_le
      have hdrop : (field.drop (field.takeWhile isNameChar).length).length =
          field.length - (field.takeWhile isNameChar).length :=
        List.length_drop _ _
      have hws2 : ((field.drop (field.takeWhile isNameChar).length).takeWhile
          pyWS).length ≤ (field.drop (field.takeWhile isNameChar).length).length :=
        (List.takeWhile_sublist _).length_le
      have hg2a : g2.length ≤
          ((field.drop (field.takeWhile isNameChar).length).drop
            ((field.drop (field.takeWhile isNameChar).length).takeWhile
              pyWS).length).length := by
        rw [← h.2]
        exact (List.takeWhile_sublist _).length_le
      rw [List.length_drop] at hg2a
      omega

/-- The length of the string handed to a recursive call, in terms of the
hypotheses available at that site. -/
theorem recursion_length_bound {s content field nm g2 : Str}
    (hm : structMatch (pystrip s) = some content)
    (hf : field ∈ split_top_level_fields content)
    (hfm : fieldMatch field = some (nm, g2)) :
    (pystrip g2).length + 10 ≤ s.length := by
  have b1 := pystrip_length_le g2
  have b2 := fieldMatch_length hfm
  have b3 := split_top_level_fields_length hf
  have b4 := structMatch_length hm
  have b5 := pystrip_length_le s
  omega

theorem extractFuel_stable :
    ∀ (f : Nat) (s : Str) (p : List Str), s.length ≤ f →
      extractFuel (f + 1) s p = extractFuel f s p := by
  intro f
  induction f with
  | zero =>
    intro s p hs
    have hnil : s = [] := List.length_eq_zero.mp (Nat.le_zero.mp hs)
    subst hnil
    rfl
  | succ f ih =>
    intro s p hs
    simp only [extractFuel]
    cases hm : structMatch (pystrip s) with
    | none => simp
    | some content =>
      simp only []
      congr 1
      apply List.map_congr_left
      intro field hf
      cases hfm : fieldMatch field with
      | none => simp
      | some nf =>
        obtain ⟨nameRaw, g2⟩ := nf
        simp only []
        by_cases hign : ignoredName (stripQuotes nameRaw) = true
        · simp [hign]
        · simp only [Bool.not_eq_true] at hign
          simp only [hign, Bool.false_eq_true, if_false]
          by_cases hst : isPrefixB "STRUCT".data (pystrip g2) = true
          · simp only [hst, if_true]
            apply ih
            have hb := recursion_length_bound hm hf hfm
            omega
          · simp [hst]

theorem extractFuel_eq :
    ∀ (f : Nat) (s : Str) (p : List Str), s.length ≤ f →
      extractFuel f s p = extract_struct_fields s p := by
  intro f
  induction f with
  | zero =>
    intro s p hs
    unfold extract_struct_fields
    rw [Nat.le_zero.mp hs]
  | succ f ih =>
    intro s p hs
    by_cases h : s.length ≤ f
    · rw [extractFuel_stable f s p h]
      exact ih s p h
    · have hlen : s.length = f + 1 := by omega
      unfold extract_struct_fields
      rw [hlen]

/-- The unfolding equation of `extract_struct_fields` itself: one step of
the Python function's body, with the recursive occurrence referring back to
`extract_struct_fields`.  All later structural proofs go through this
equation, leaving the fuel entirely behind. -/
theorem extract_unfold (s : Str) (p : List Str) :
    extract_struct_fields s p =
      match structMatch (pystrip s) with
      | none => [(pystrip s, p)]
      | some content =>
        ((split_top_level_fields content).map (fun field =>
          match fieldMatch field with
          | none => []
          | some (nameRaw, g2) =>
            let field_name := stripQuotes nameRaw
            if ignoredName field_name then []
            else
              let field_type := pystrip g2
              if isPrefixB "STRUCT".data field_type then
                extract_struct_fields field_type (p ++ [field_name])
              else
                [(field_type, p ++ [field_name])])).flatten := by
  cases hn : s.length with
  | zero =>
    have hnil : s = [] := List.length_eq_zero.mp hn
    subst hnil
    rfl
  | succ n =>
    have hwrap : extract_struct_fields s p = extractFuel (n + 1) s p := by
      unfold extract_struct_fields
      rw [hn]
    rw [hwrap]
    simp only [extractFuel]
    cases hm : structMatch (pystrip s) with
    | none => simp
    | some content =>
      simp only []
      congr 1
      apply List.map_congr_left
      intro field hf
      cases hfm : fieldMatch field with
      | none => simp
      | some nf =>
        obtain ⟨nameRaw, g2⟩ := nf
        simp only []
        by_cases hign : ignoredName (stripQuotes nameRaw) = true
        · simp [hign]
        · simp only [Bool.not_eq_true] at hign
          simp only [hign, Bool.false_eq_true, if_false]
          by_cases hst : isPrefixB "STRUCT".data (pystrip g2) = true
          · simp only [hst, if_true]
            apply extractFuel_eq
            have hb := recursion_length_bound hm hf hfm
            omega
          · simp [hst]

/-! ## Structural properties of extraction -/

theorem fieldMatch_name {field nm g2 : Str}
    (h : fieldMatch field = some (nm, g2)) :
    nm = field.takeWhile isNameChar := by
  unfold fieldMatch at h
  by_cases h1 : field.takeWhile isNameChar = []
  · simp only [h1, if_true] at h; exact absurd h (by simp)
  · simp only [h1, if_false] at h
    by_cases h2 : (field.drop (field.takeWhile isNameChar).length).takeWhile pyWS = []
    · simp only [h2, if_true] at h; exact absurd h (by simp)
    · simp only [h2, if_false, Option.some.injEq, Prod.mk.injEq] at h
      exact h.1.symm

theorem mem_of_mem_stripQuotes {c : Char} {s : Str} (h : c ∈ stripQuotes s) :
    c ∈ s := by
  unfold stripQuotes at h
  have h1 := (List.dropWhile_sublist (l := (s.dropWhile (· = '"')).reverse)
    (· = '"')).mem (List.mem_reverse.mp h)
  have h2 := List.mem_reverse.mp h1
  exact (List.dropWhile_sublist (l := s) (· = '"')).mem h2

/-- Every path produced by extraction extends the starting path. -/
theorem extract_take_core :
    ∀ (n : Nat) (s : Str) (p₀ : List Str) (t : Str) (q : List Str),
      s.length ≤ n → (t, q) ∈ extract_struct_fields s p₀ →
      q.take p₀.length = p₀ := by
  intro n
  induction n with
  | zero =>
    intro s p₀ t q hs h
    have hnil : s = [] := List.length_eq_zero.mp (Nat.le_zero.mp hs)
    subst hnil
    simp only [extract_struct_fields, extractFuel, List.length_nil,
      List.mem_singleton, Prod.mk.injEq] at h
    rw [h.2]
    exact List.take_length _
  | succ n ih =>
    intro s p₀ t q hs h
    rw [extract_unfold] at h
    cases hm : structMatch (pystrip s) with
    | none =>
      rw [hm] at h
      simp only [List.mem_singleton, Prod.mk.injEq] at h
      rw [h.2]
      exact List.take_length _
    | some content =>
      rw [hm] at h
      simp only [List.mem_flatten, List.mem_map] at h
      obtain ⟨l, ⟨field, hf, hl⟩, hq⟩ := h
      subst hl
      cases hfm : fieldMatch field with
      | none => rw [hfm] at hq; simp at hq
      | some nf =>
        obtain ⟨nameRaw, g2⟩ := nf
        rw [hfm] at hq
        simp only [] at hq
        by_cases hign : ignoredName (stripQuotes nameRaw) = true
        · rw [if_pos hign] at hq; simp at hq
        · simp only [Bool.not_eq_true] at hign
          rw [if_neg (by simp [hign])] at hq
          by_cases hst : isPrefixB "STRUCT".data (pystrip g2) = true
          · rw [if_pos hst] at hq
            have hb := recursion_length_bound hm hf hfm
            have hrec := ih (pystrip g2) (p₀ ++ [stripQuotes nameRaw]) t q
              (by omega) hq
            have : q.take p₀.length =
                (q.take (p₀ ++ [stripQuotes nameRaw]).length).take p₀.length := by
              rw [List.take_take]
              congr 1
              simp only [List.length_append, List.length_cons, List.length_nil]
              omega
            rw [this, hrec]
            exact List.take_left p₀ [stripQuotes nameRaw]
          · rw [if_neg (by simp [hst])] at hq
            simp only [List.mem_singleton, Prod.mk.injEq] at hq
            rw [hq.2]
            exact List.take_left p₀ [stripQuotes nameRaw]

/-- Every segment of an extracted path comes from the starting path or is a
(quote-stripped run of) name characters: in particular no segment produced
by the parser contains a bracket. -/
theorem extract_seg_core :
    ∀ (n : Nat) (s : Str) (p₀ : List Str) (t : Str) (q : List Str),
      s.length ≤ n → (t, q) ∈ extract_struct_fields s p₀ →
      ∀ seg ∈ q, seg ∈ p₀ ∨ ∀ c ∈ seg, isNameChar c = true := by
  intro n
  induction n with
  | zero =>
    intro s p₀ t q hs h seg hseg
    have hnil : s = [] := List.length_eq_zero.mp (Nat.le_zero.mp hs)
    subst hnil
    simp only [extract_struct_fields, extractFuel, List.length_nil,
      List.mem_singleton, Prod.mk.injEq] at h
    rw [← h.2]
    exact Or.inl hseg
  | succ n ih =>
    intro s p₀ t q hs h seg hseg
    rw [extract_unfold] at h
    cases hm : structMatch (pystrip s) with
    | none =>
      rw [hm] at h
      simp only [List.mem_singleton, Prod.mk.injEq] at h
      rw [← h.2]
      exact Or.inl hseg
    | some content =>
      rw [hm] at h
      simp only [List.mem_flatten, List.mem_map] at h
      obtain ⟨l, ⟨field, hf, hl⟩, hq⟩ := h
      subst hl
      cases hfm : fieldMatch field with
      | none => rw [hfm] at hq; simp at hq
      | some nf =>
        obtain ⟨nameRaw, g2⟩ := nf
        rw [hfm] at hq
        simp only [] at hq
        have hname : ∀ c ∈ stripQuotes nameRaw, isNameChar c = true := by
          intro c hc
          have hc2 := mem_of_mem_stripQuotes hc
          rw [fieldMatch_name hfm] at hc2
          exact (mem_takeWhile_imp hc2).1
        by_cases hign : ignoredName (stripQuotes nameRaw) = true
        · rw [if_pos hign] at hq; simp at hq
        · simp only [Bool.not_eq_true] at hign
          rw [if_neg (by simp [hign])] at hq
          by_cases hst : isPrefixB "STRUCT".data (pystrip g2) = true
          · rw [if_pos hst] at hq
            have hb := recursion_length_bound hm hf hfm
            have hrec := ih (pystrip g2) (p₀ ++ [stripQuotes nameRaw]) t q
              (by omega) hq seg hseg
            rcases hrec with h' | h'
            · rcases List.mem_append.mp h' with h'' | h''
              · exact Or.inl h''
              · simp only [List.mem_singleton] at h''
                subst h''
                exact Or.inr hname
            · exact Or.inr h'
          · rw [if_neg (by simp [hst])] at hq
            simp only [List.mem_singleton, Prod.mk.injEq] at hq
            rw [hq.2] at hseg
            rcases List.mem_append.mp hseg with h'' | h''
            · exact Or.inl h''
            · simp only [List.mem_singleton] at h''
              subst h''
              exact Or.inr hname

/-! ## Loop / flatMap correspondence for the projection pipeline -/

theorem leafCols_foldl (disc : Str → Except Unit (List Str)) :
    ∀ (l : List (Str × List Str)) (acc : List (Str × Str)),
      l.foldl (fun acc2 ftp => acc2 ++ leafCols disc ftp.1 ftp.2) acc =
        acc ++ l.flatMap (fun ftp => leafCols disc ftp.1 ftp.2) := by
  intro l
  induction l with
  | nil => intro acc; simp
  | cons x t ih =>
    intro acc
    simp only [List.foldl_cons, List.flatMap_cons, ih, List.append_assoc]

/-- The imperative accumulation of `select_exprs` equals the flat
concatenation, per schema column and per extracted leaf, of the column
groups: column order is schema order, leaf order is extraction order, and
each leaf's group (a single cast column or a block of indicator columns)
appears contiguously at the position of its leaf. -/
theorem selectColsLoop_eq (disc : Str → Except Unit (List Str))
    (schema : List (Str × Str)) :
    selectColsLoop disc schema = schema.flatMap (fun nt =>
      if nt.1 ∈ IGNORE_FIELDS then []
      else (extract_struct_fields nt.2 [nt.1]).flatMap
        (fun ftp => leafCols disc ftp.1 ftp.2)) := by
  unfold selectColsLoop
  suffices h : ∀ (sch : List (Str × Str)) (acc : List (Str × Str)),
      sch.foldl (fun acc nt =>
        if nt.1 ∈ IGNORE_FIELDS then acc
        else (extract_struct_fields nt.2 [nt.1]).foldl
          (fun acc2 ftp => acc2 ++ leafCols disc ftp.1 ftp.2) acc) acc =
      acc ++ sch.flatMap (fun nt =>
        if nt.1 ∈ IGNORE_FIELDS then []
        else (extract_struct_fields nt.2 [nt.1]).flatMap
          (fun ftp => leafCols disc ftp.1 ftp.2)) by
    simpa using h schema []
  intro sch
  induction sch with
  | nil => intro acc; simp
  | cons nt t ih =>
    intro acc
    simp only [List.foldl_cons, List.flatMap_cons, ih]
    by_cases hmem : nt.1 ∈ IGNORE_FIELDS
    · simp [hmem]
    · simp only [hmem, if_false, if_neg hmem]
      rw [leafCols_foldl disc]
      simp [List.append_assoc]

/-! ## C1: ignore semantics -/

/-- C1: for every leaf field whose path has a segment containing any
ignore-set string as a substring, the projection loop emits no output
column for that field (its contribution to `select_exprs` is empty) — in
particular any path with `"sha"` inside any segment, however deep, yields
no column. -/
theorem claim1_ignored_path_no_column
    (disc : Str → Except Unit (List Str)) (field_type : Str)
    (field_path : List Str)
    (h : ∃ part ∈ field_path, ∃ ig ∈ IGNORE_FIELDS, isSubstr ig part = true) :
    leafCols disc field_type field_path = [] := by
  have hign : pathIgnored field_path = true := by
    rcases h with ⟨part, hp, ig, hig, hsub⟩
    unfold pathIgnored
    rw [List.any_eq_true]
    refine ⟨part, hp, ?_⟩
    rw [List.any_eq_true]
    exact ⟨ig, hig, hsub⟩
  unfold leafCols
  rw [if_pos hign]

/-- Witness for C1 at a concrete input: `"sha"` occurring inside the third
segment of a depth-three path suppresses the column. -/
theorem claim1_witness :
    (∃ part ∈ ["top".data, "mid".data, "c_sha_d".data],
        ∃ ig ∈ IGNORE_FIELDS, isSubstr ig part = true) ∧
    leafCols discFail "VARCHAR".data
      ["top".data, "mid".data, "c_sha_d".data] = [] :=
  ⟨by decide,
   claim1_ignored_path_no_column discFail "VARCHAR".data
     ["top".data, "mid".data, "c_sha_d".data] (by decide)⟩

/-! ## C6: unmatched `STRUCT(` -/

theorem structMatch_none_of_no_close {s : Str} (h : ')' ∉ s) :
    structMatch s = none := by
  unfold structMatch
  by_cases hp : isPrefixB "STRUCT(".data s = true
  · rw [if_pos hp]
    have hdrop : ((s.drop 7).takeWhile (· ≠ '\n')).reverse.dropWhile
        (· ≠ ')') = [] := by
      apply dropWhile_eq_nil_of_all
      intro c hc
      have hc1 := List.mem_reverse.mp hc
      have hc2 := (mem_takeWhile_imp hc1).2
      have hc3 := (List.drop_sublist 7 s).mem hc2
      simp only [decide_eq_true_eq]
      intro hcontra
      subst hcontra
      exact h hc3
    rw [hdrop]
  · rw [if_neg hp]

/-- C6 counterexample: on the type string `STRUCT(a VARCHAR`, whose
`STRUCT(` opening has no matching `)`, the parser does not fail — it
returns a parse result (the whole string as a scalar leaf).  No
`MalformedSchemaError` exists anywhere in `flatten.py`. -/
theorem claim6_counterexample :
    extract_struct_fields "STRUCT(a VARCHAR".data ["x".data] =
      [("STRUCT(a VARCHAR".data, ["x".data])] := by decide

/-- C6 amended: a type string containing no `)` at all (in particular one
whose `STRUCT(` opening is unmatched) is never rejected: `extract` treats
it as a scalar leaf and returns the stripped string with the given path. -/
theorem claim6_amended_scalar_leaf (s : Str) (p : List Str) (h : ')' ∉ s) :
    extract_struct_fields s p = [(pystrip s, p)] := by
  rw [extract_unfold]
  have hm : structMatch (pystrip s) = none := by
    apply structMatch_none_of_no_close
    intro hc
    exact h (mem_of_mem_pystrip hc)
  rw [hm]

/-- Witness for the amended C6. -/
theorem claim6_witness :
    (')' ∉ "STRUCT(a VARCHAR".data) ∧
    extract_struct_fields "STRUCT(a VARCHAR".data ["col".data] =
      [(pystrip "STRUCT(a VARCHAR".data, ["col".data])] :=
  ⟨by decide,
   claim6_amended_scalar_leaf "STRUCT(a VARCHAR".data ["col".data] (by decide)⟩

/-! ## C10: trailing text after `STRUCT(...)` -/

theorem mem_of_mem_rstrip {c : Char} {s : Str} (h : c ∈ rstrip s) : c ∈ s := by
  unfold rstrip at h
  have h1 := (List.dropWhile_sublist (l := s.reverse) pyWS).mem
    (List.mem_reverse.mp h)
  exact List.mem_reverse.mp h1

theorem lstrip_cons_nonWS {c : Char} {w : Str} (h : pyWS c = false) :
    lstrip (c :: w) = c :: w := by
  unfold lstrip
  rw [List.dropWhile_cons, h]
  simp

theorem rstrip_append_close (u ts : Str) :
    rstrip (u ++ ')' :: ts) = u ++ ')' :: rstrip ts := by
  unfold rstrip
  have h1 : (u ++ ')' :: ts).reverse = ts.reverse ++ ')' :: u.reverse := by
    simp
  rw [h1, dropWhile_append_cons_neg (by decide) ts.reverse u.reverse]
  simp

theorem structMatch_concat {content ts : Str}
    (h1 : '\n' ∉ content) (h2 : ')' ∉ ts) (h3 : '\n' ∉ ts) :
    structMatch ("STRUCT(".data ++ content ++ ')' :: ts) = some content := by
  unfold structMatch
  have hp : isPrefixB "STRUCT(".data
      ("STRUCT(".data ++ content ++ ')' :: ts) = true := by
    rw [List.append_assoc]
    exact isPrefixB_append _ _
  rw [if_pos hp]
  have hdrop7 : ("STRUCT(".data ++ content ++ ')' :: ts).drop 7 =
      content ++ ')' :: ts := by
    rw [List.append_assoc]
    rw [show (7 : Nat) = ("STRUCT(".data).length from rfl]
    exact List.drop_left _ _
  rw [hdrop7]
  have htw : (content ++ ')' :: ts).takeWhile (· ≠ '\n') =
      content ++ ')' :: ts := by
    apply takeWhile_eq_self_of_all
    intro c hc
    simp only [decide_eq_true_eq]
    intro hcontra
    subst hcontra
    rcases List.mem_append.mp hc with h' | h'
    · exact h1 h'
    · rcases List.mem_cons.mp h' with h'' | h''
      · exact absurd h''.symm (by decide)
      · exact h3 h''
  rw [htw]
  have hrev : (content ++ ')' :: ts).reverse =
      ts.reverse ++ ')' :: content.reverse := by simp
  rw [hrev]
  have hdw : (ts.reverse ++ ')' :: content.reverse).dropWhile (· ≠ ')') =
      ')' :: content.reverse := by
    rw [dropWhile_append_all]
    · rw [List.dropWhile_cons]
      simp
    · intro c hc
      simp only [decide_eq_true_eq]
      intro hcontra
      subst hcontra
      exact h2 (List.mem_reverse.mp hc)
  rw [hdw]
  simp

/-- C10: for every type string of the shape `STRUCT(<content>)<trailing>`
(in particular an array-of-struct `STRUCT(...)[]`), the non-anchored prefix
match drops the trailing text and the string is parsed exactly like the
plain struct `STRUCT(<content>)`: the struct's fields become ordinary
nested leaves and the array nature of the column is lost.  (`trailing` may
not contain `)` or a newline, which would shift the greedy match; `content`
may not contain a newline.) -/
theorem claim10_trailing_text_ignored
    (content trailing : Str) (p : List Str)
    (h1 : '\n' ∉ content) (h2 : ')' ∉ trailing) (h3 : '\n' ∉ trailing) :
    extract_struct_fields ("STRUCT(".data ++ content ++ ')' :: trailing) p =
      extract_struct_fields ("STRUCT(".data ++ content ++ [')']) p := by
  have e1 : pystrip ("STRUCT(".data ++ content ++ ')' :: trailing) =
      "STRUCT(".data ++ content ++ ')' :: rstrip trailing := by
    unfold pystrip
    rw [show ("STRUCT(".data ++ content ++ ')' :: trailing) =
      'S' :: ("TRUCT(".data ++ content ++ ')' :: trailing) from by simp,
      lstrip_cons_nonWS (by decide)]
    rw [show ('S' :: ("TRUCT(".data ++ content ++ ')' :: trailing)) =
      ("STRUCT(".data ++ content) ++ ')' :: trailing from by simp,
      rstrip_append_close]
  have e2 : pystrip ("STRUCT(".data ++ content ++ [')']) =
      "STRUCT(".data ++ content ++ [')'] := by
    unfold pystrip
    rw [show ("STRUCT(".data ++ content ++ [')']) =
      'S' :: ("TRUCT(".data ++ content ++ [')']) from by simp,
      lstrip_cons_nonWS (by decide)]
    rw [show ('S' :: ("TRUCT(".data ++ content ++ [')'])) =
      ("STRUCT(".data ++ content) ++ ')' :: ([] : Str) from by simp,
      rstrip_append_close]
    simp [rstrip, lstrip]
  have m1 : structMatch (pystrip ("STRUCT(".data ++ content ++ ')' :: trailing)) =
      some content := by
    rw [e1]
    apply structMatch_concat h1
    · intro hc; exact h2 (mem_of_mem_rstrip hc)
    · intro hc; exact h3 (mem_of_mem_rstrip hc)
  have m2 : structMatch (pystrip ("STRUCT(".data ++ content ++ [')'])) =
      some content := by
    rw [e2]
    exact structMatch_concat h1 (by simp) (by simp)
  rw [extract_unfold, m1, extract_unfold ("STRUCT(".data ++ content ++ [')']), m2]

/-- Witness for C10: the concrete array-of-struct type `STRUCT(a VARCHAR)[]`. -/
theorem claim10_witness :
    ('\n' ∉ "a VARCHAR".data) ∧ (')' ∉ "[]".data) ∧ ('\n' ∉ "[]".data) ∧
    extract_struct_fields ("STRUCT(".data ++ "a VARCHAR".data ++ ')' :: "[]".data)
        ["c".data] =
      extract_struct_fields ("STRUCT(".data ++ "a VARCHAR".data ++ [')'])
        ["c".data] :=
  ⟨by decide, by decide, by decide,
   claim10_trailing_text_ignored "a VARCHAR".data "[]".data ["c".data]
     (by decide) (by decide) (by decide)⟩

/-! ## C3, C4, C5: the list-field indicator expander -/

/-- Unfolding of `leafCols` in the expanded-array case. -/
theorem leafCols_array (disc : Str → Except Unit (List Str))
    (fp : List Str) (h1 : pathIgnored fp = false)
    (h2 : d_110349197 ∉ fp) (h3 : d_543608829 ∉ fp) :
    leafCols disc "VARCHAR[]".data fp =
      match disc (build_sql_path fp) with
      | .ok distinct_vals => distinct_vals.map
          (fun val => indicatorCol (build_sql_path fp) (mkAlias fp) val)
      | .error _ => [plainCol (build_sql_path fp) (mkAlias fp)] := by
  unfold leafCols
  rw [if_neg (by simp [h1])]
  rw [if_pos ⟨rfl, h2, h3⟩]

/-- Unfolding of `leafCols` for an exempted list field. -/
theorem leafCols_exempt (disc : Str → Except Unit (List Str))
    (ft : Str) (fp : List Str)
    (hex : d_110349197 ∈ fp ∨ d_543608829 ∈ fp)
    (h1 : pathIgnored fp = false) :
    leafCols disc ft fp = [plainCol (build_sql_path fp) (mkAlias fp)] := by
  have hneg : ¬(ft = "VARCHAR[]".data ∧ d_110349197 ∉ fp ∧
      d_543608829 ∉ fp) := by
    rintro ⟨-, hna, hnb⟩
    rcases hex with h | h
    · exact hna h
    · exact hnb h
  unfold leafCols
  rw [if_neg (by simp [h1])]
  rw [if_neg hneg]

/-- C3: a leaf of type exactly `VARCHAR[]` whose path contains neither
exempted field name as a segment is expanded through the distinct-value
discovery, and indicator columns are produced exactly for the discovered
values that coerce to an integer (the query's `TRY_CAST ... AS BIGINT`
filter, executed by the engine); values that do not coerce, such as free
text `"yes"`, yield no column; and a leaf whose path contains an exempted
name is never expanded, staying a single cast column. -/
theorem claim3_expander_scope
    (cand : List Str) (field_path : List Str)
    (h1 : pathIgnored field_path = false)
    (h2 : d_110349197 ∉ field_path) (h3 : d_543608829 ∉ field_path) :
    (leafCols (discoveryOracle cand) "VARCHAR[]".data field_path =
      (cand.filter tryCastBigint).map
        (fun val => indicatorCol (build_sql_path field_path)
          (mkAlias field_path) val)) ∧
    (∀ ft fp2, (d_110349197 ∈ fp2 ∨ d_543608829 ∈ fp2) →
      pathIgnored fp2 = false →
      leafCols (discoveryOracle cand) ft fp2 =
        [plainCol (build_sql_path fp2) (mkAlias fp2)]) := by
  constructor
  · rw [leafCols_array _ _ h1 h2 h3]
    rfl
  · intro ft fp2 hex hign
    exact leafCols_exempt _ ft fp2 hex hign

/-- Witness for C3: discovered candidates `{"1", "yes", "3"}` yield
indicator columns for `"1"` and `"3"` only. -/
theorem claim3_witness :
    (pathIgnored ["survey_answers".data] = false) ∧
    leafCols (discoveryOracle ["1".data, "yes".data, "3".data])
        "VARCHAR[]".data ["survey_answers".data] =
      (["1".data, "yes".data, "3".data].filter tryCastBigint).map
        (fun val => indicatorCol (build_sql_path ["survey_answers".data])
          (mkAlias ["survey_answers".data]) val) :=
  ⟨by decide,
   (claim3_expander_scope ["1".data, "yes".data, "3".data]
     ["survey_answers".data] (by decide) (by decide) (by decide)).1⟩

example :
    (["1".data, "yes".data, "3".data].filter tryCastBigint) =
      ["1".data, "3".data] := by decide

example :
    (leafCols (discoveryOracle ["1".data, "yes".data, "3".data])
        "VARCHAR[]".data ["survey_answers".data]).map Prod.snd =
      ["survey_answers_D_1".data, "survey_answers_D_3".data] := by decide

theorem sanitizeGo_eq_spec_of_no_underscore :
    ∀ (s : Str) (b : Bool), '_' ∉ s → sanitizeGo b s = specSanitizeGo b s := by
  intro s
  induction s with
  | nil => intro b _; rfl
  | cons c rest ih =>
    intro b h
    have hc : c ≠ '_' := by
      intro hcontra
      exact h (by rw [hcontra]; exact List.mem_cons_self _ _)
    have hrest : '_' ∉ rest := fun hm => h (List.mem_cons_of_mem _ hm)
    have hword : isWordChar c = c.isAlphanum := by
      unfold isWordChar
      rcases hA : c.isAlphanum with _ | _
      · simp [hA, hc]
      · simp [hA]
    unfold sanitizeGo specSanitizeGo
    rw [hword]
    rcases hA : c.isAlphanum with _ | _
    · simp only [hA, if_false, Bool.false_eq_true]
      rcases b with _ | _
      · simp [ih true hrest]
      · simp [ih true hrest]
    · simp [hA, ih false hrest]

theorem tryCastBigint_no_underscore {v : Str} (h : tryCastBigint v = true) :
    '_' ∉ v := by
  intro hmem
  have hm2 : '_' ∈ pystrip v := mem_pystrip_of_not_ws hmem (by decide)
  simp only [tryCastBigint, Bool.and_eq_true, List.all_eq_true] at h
  by_cases hsign : (isPrefixB "+".data (pystrip v) ||
      isPrefixB "-".data (pystrip v)) = true
  · rw [if_pos hsign] at h
    rcases hps : pystrip v with _ | ⟨c, r⟩
    · rw [hps] at hm2; simp at hm2
    · rw [hps] at h hm2 hsign
      simp only [List.drop_succ_cons, List.drop_zero] at h
      have hc : c = '+' ∨ c = '-' := by
        rcases Bool.or_eq_true_iff.mp hsign with h' | h'
        · left
          simp only [show "+".data = ['+'] from rfl, isPrefixB,
            Bool.and_eq_true, decide_eq_true_eq] at h'
          exact h'.1.symm
        · right
          simp only [show "-".data = ['-'] from rfl, isPrefixB,
            Bool.and_eq_true, decide_eq_true_eq] at h'
          exact h'.1.symm
      rcases List.mem_cons.mp hm2 with h' | h'
      · rcases hc with hc | hc <;> rw [hc] at h' <;> exact absurd h' (by decide)
      · exact absurd (h.2 '_' h') (by decide)
  · rw [if_neg hsign] at h
    exact absurd (h.2 '_' hm2) (by decide)

/-- C4: for each value the discovery query returns, the expander emits
exactly one indicator column, in the returned order (no re-sorting); the
alias appends `_D_` and the sanitised value to the base alias, and the
source's `\W+` sanitisation agrees with the spec's
non-alphanumeric-run-to-single-underscore rule on every value the
discovery filter can return; the expression is the null-defaulted
array-containment boolean cast to the string output type. -/
theorem claim4_indicator_shape
    (disc : Str → Except Unit (List Str)) (vals : List Str) (fp : List Str)
    (hd : disc (build_sql_path fp) = .ok vals)
    (h1 : pathIgnored fp = false)
    (h2 : d_110349197 ∉ fp) (h3 : d_543608829 ∉ fp) :
    (leafCols disc "VARCHAR[]".data fp =
      vals.map (fun val => indicatorCol (build_sql_path fp) (mkAlias fp) val)) ∧
    (∀ val, indicatorCol (build_sql_path fp) (mkAlias fp) val =
      ("CAST(IFNULL(CAST(array_contains(".data ++ build_sql_path fp ++
        ", '".data ++ escape_sql_value val ++
        "') AS INTEGER), 0) AS STRING) AS \"".data ++
        (mkAlias fp ++ "_D_".data ++ sanitizeVal val) ++ "\"".data,
       mkAlias fp ++ "_D_".data ++ sanitizeVal val)) ∧
    (∀ val, tryCastBigint val = true → sanitizeVal val = specSanitize val) := by
  refine ⟨?_, ?_, ?_⟩
  · rw [leafCols_array _ _ h1 h2 h3, hd]
  · intro val
    rfl
  · intro val hv
    exact sanitizeGo_eq_spec_of_no_underscore val false
      (tryCastBigint_no_underscore hv)

/-- Witness for C4: discovered values `{"1", "2", "7"}` yield exactly the
three indicator columns, in discovery order. -/
theorem claim4_witness :
    (discConst ["1".data, "2".data, "7".data]
        (build_sql_path ["survey_answers".data]) =
      .ok ["1".data, "2".data, "7".data]) ∧
    leafCols (discConst ["1".data, "2".data, "7".data]) "VARCHAR[]".data
        ["survey_answers".data] =
      ["1".data, "2".data, "7".data].map
        (fun val => indicatorCol (build_sql_path ["survey_answers".data])
          (mkAlias ["survey_answers".data]) val) :=
  ⟨rfl,
   (claim4_indicator_shape (discConst ["1".data, "2".data, "7".data])
     ["1".data, "2".data, "7".data] ["survey_answers".data] rfl
     (by decide) (by decide) (by decide)).1⟩

example :
    (leafCols (discConst ["1".data, "2".data, "7".data]) "VARCHAR[]".data
        ["survey_answers".data]).map Prod.snd =
      ["survey_answers_D_1".data, "survey_answers_D_2".data,
       "survey_answers_D_7".data] := by decide

/-- C5: when the discovery query for an expandable array leaf fails, the
engine emits instead a single column casting the whole array to the string
output type under the original unexpanded alias; and the projection loop
distributes over schema concatenation, so the failure never aborts the
processing of the remaining columns. -/
theorem claim5_failure_fallback
    (disc : Str → Except Unit (List Str)) (fp : List Str)
    (hd : disc (build_sql_path fp) = .error ())
    (h1 : pathIgnored fp = false)
    (h2 : d_110349197 ∉ fp) (h3 : d_543608829 ∉ fp) :
    (leafCols disc "VARCHAR[]".data fp =
      [plainCol (build_sql_path fp) (mkAlias fp)]) ∧
    (∀ schema1 schema2 : List (Str × Str),
      selectColsLoop disc (schema1 ++ schema2) =
        selectColsLoop disc schema1 ++ selectColsLoop disc schema2) := by
  constructor
  · rw [leafCols_array _ _ h1 h2 h3, hd]
  · intro s1 s2
    rw [selectColsLoop_eq, selectColsLoop_eq, selectColsLoop_eq,
      List.flatMap_append]

/-- Witness for C5: with an always-failing discovery collaborator, the
array leaf `t.b.c` falls back to a single cast column under its original
alias. -/
theorem claim5_witness :
    (discFail (build_sql_path ["t".data, "b".data, "c".data]) = .error ()) ∧
    leafCols discFail "VARCHAR[]".data ["t".data, "b".data, "c".data] =
      [plainCol (build_sql_path ["t".data, "b".data, "c".data])
        (mkAlias ["t".data, "b".data, "c".data])] :=
  ⟨rfl,
   (claim5_failure_fallback discFail ["t".data, "b".data, "c".data] rfl
     (by decide) (by decide) (by decide)).1⟩

example :
    selectExprs discFail
        [("t".data, "STRUCT(a VARCHAR, b STRUCT(c VARCHAR[]))".data)] =
      ["CAST(\"t\".\"a\" AS STRING) AS \"t_a\"".data,
       "CAST(\"t\".\"b\".\"c\" AS STRING) AS \"t_b_c\"".data] := by decide

/-! ## C7: the statement assembler -/

/-- C7: the assembler returns no statement exactly when the projection
expression list is empty; otherwise it returns the single
`SELECT ... FROM read_parquet(...)` statement over the comma-joined
expressions; and the expression list is the flat concatenation, in schema
order and then depth-first extraction order, of the per-leaf column
groups, each group contiguous at the position its base field occupied. -/
theorem claim7_assembler
    (disc : Str → Except Unit (List Str)) (schema : List (Str × Str))
    (parquet_path : Str) :
    (create_flattening_select_statement disc schema parquet_path = none ↔
      selectExprs disc schema = []) ∧
    (selectExprs disc schema ≠ [] →
      create_flattening_select_statement disc schema parquet_path =
        some ("\n                    SELECT\n                    ".data ++
          joinStr ", ".data (selectExprs disc schema) ++
          "\n                    FROM read_parquet('".data ++ parquet_path ++
          "')\n                ".data)) ∧
    (selectColsLoop disc schema = schema.flatMap (fun nt =>
      if nt.1 ∈ IGNORE_FIELDS then []
      else (extract_struct_fields nt.2 [nt.1]).flatMap
        (fun ftp => leafCols disc ftp.1 ftp.2))) := by
  refine ⟨?_, ?_, selectColsLoop_eq disc schema⟩
  · unfold create_flattening_select_statement
    by_cases h : selectExprs disc schema = []
    · simp [h]
    · simp [h]
  · intro h
    unfold create_flattening_select_statement
    rw [if_neg h]

/-- Witness for C7 on a concrete schema. -/
theorem claim7_witness :
    (selectExprs discFail [("t".data, "STRUCT(a VARCHAR)".data)] ≠ []) ∧
    create_flattening_select_statement discFail
        [("t".data, "STRUCT(a VARCHAR)".data)] "p".data =
      some ("\n                    SELECT\n                    ".data ++
        joinStr ", ".data
          (selectExprs discFail [("t".data, "STRUCT(a VARCHAR)".data)]) ++
        "\n                    FROM read_parquet('".data ++ "p".data ++
        "')\n                ".data) :=
  ⟨by decide,
   (claim7_assembler discFail [("t".data, "STRUCT(a VARCHAR)".data)]
     "p".data).2.1 (by decide)⟩

example :
    create_flattening_select_statement discFail
      [("sha".data, "VARCHAR".data)] "p".data = none := by decide

/-! ## C2: the D_470862706 special case -/

/-- C2 counterexample: a schema in which the registry column
`D_470862706` arrives entity-wrapped (an intermediate `entity` struct
layer).  The generated projection keeps the first path segment unmodified
and QUOTED (`"D_470862706"`), with no `[1]` index accessor anywhere: the
path rewrite described by the claim is commented out in
`create_flattening_select_statement`, so it never happens.  (Note the
alias does get its cosmetic `_entity` stripped, so the wrapper layer is
recognised — only the accessor rewrite is absent.) -/
theorem claim2_counterexample :
    selectExprs discFail
        [("D_470862706".data,
          "STRUCT(entity STRUCT(D_129584832 VARCHAR))".data)] =
      ["CAST(\"D_470862706\".\"entity\".\"D_129584832\" AS STRING) AS \"D_470862706_D_129584832\"".data] := by
  decide

/-- C2 amended: no classification of the registry field and no path
rewrite occur in the code.  For every schema column whose name contains no
bracket, every extracted leaf's accessor is the plain dot-join of the
QUOTED path segments — the first segment included, quoted, with no index
accessor.  `build_sql_path` would pass a segment starting with
`D_470862706[` through unquoted, but the loop that would create such a
segment is commented out, so the pipeline never produces one. -/
theorem claim2_amended_no_rewrite
    (col_name col_type t : Str) (p : List Str)
    (hb : '[' ∉ col_name)
    (hmem : (t, p) ∈ extract_struct_fields col_type [col_name]) :
    (build_sql_path p = joinStr ".".data (p.map quoteSeg)) ∧
    (∀ (i : Nat) (rest : Str),
      sqlPart i (D_470862706 ++ '[' :: rest) = D_470862706 ++ '[' :: rest) := by
  constructor
  · have hsegs : ∀ seg ∈ p, '[' ∉ seg := by
      intro seg hs hbr
      rcases extract_seg_core col_type.length col_type [col_name] t p
          le_rfl hmem seg hs with hA | hA
      · simp only [List.mem_singleton] at hA
        subst hA
        exact hb hbr
      · exact absurd (hA '[' hbr) (by decide)
    have hne : p ≠ [] := by
      have htake := extract_take_core col_type.length col_type [col_name] t p
        le_rfl hmem
      intro hc
      subst hc
      simp at htake
    unfold build_sql_path
    rw [if_neg hne]
    congr 1
    have hpt : ∀ ip ∈ p.enum, sqlPart ip.1 ip.2 = quoteSeg ip.2 := by
      intro ip hip
      have hsnd : ip.2 ∈ p := by
        have : ip.2 ∈ p.enum.map Prod.snd := List.mem_map_of_mem Prod.snd hip
        rwa [List.enum_map_snd] at this
      have hseg := hsegs ip.2 hsnd
      unfold sqlPart
      rw [if_neg (fun hpre => hseg
        (isPrefixB_mem hpre '[' (by decide)))]
      by_cases hi : ip.1 = 0
      · rw [if_pos hi]
        rw [if_neg ?_]
        rintro ⟨hcont, -⟩
        exact hseg (by simpa using hcont)
      · rw [if_neg hi]
    rw [List.map_congr_left hpt]
    rw [show (fun ip : Nat × Str => quoteSeg ip.2) =
      (quoteSeg ∘ Prod.snd) from rfl, ← List.map_map, List.enum_map_snd]
  · intro i rest
    unfold sqlPart
    rw [if_pos]
    exact isPrefixB_append (D_470862706 ++ "[".data) rest

/-- Witness for the amended C2: the entity-wrapped schema again; the
accessor is the quoted dot-join, and `build_sql_path` passes a
`D_470862706[`-prefixed segment through unchanged. -/
theorem claim2_witness :
    (('[' ∉ "D_470862706".data) ∧
      ("VARCHAR".data,
        ["D_470862706".data, "entity".data, "D_129584832".data]) ∈
        extract_struct_fields
          "STRUCT(entity STRUCT(D_129584832 VARCHAR))".data
          ["D_470862706".data]) ∧
    build_sql_path ["D_470862706".data, "entity".data, "D_129584832".data] =
      joinStr ".".data
        (["D_470862706".data, "entity".data, "D_129584832".data].map
          quoteSeg) :=
  ⟨⟨by decide, by decide⟩,
   (claim2_amended_no_rewrite "D_470862706".data
     "STRUCT(entity STRUCT(D_129584832 VARCHAR))".data "VARCHAR".data
     ["D_470862706".data, "entity".data, "D_129584832".data]
     (by decide) (by decide)).1⟩

/-! ## C9: purity of extraction under the shared default argument -/

/-- The fields loop of the state-instrumented extractor: the accumulated
result grows by the pure per-field groups and the threaded state is
untouched. -/
theorem extractSt_fold (f : Nat)
    (ihf : ∀ (s : Str) (arg : Option (List Str)) (dflt : List Str),
      extractStFuel f s arg dflt = (extractFuel f s (arg.getD dflt), dflt))
    (pp : List Str) :
    ∀ (fields : List Str) (acc : (List (Str × List Str)) × List Str),
      fields.foldl (fun acc field =>
        match fieldMatch field with
        | none => acc
        | some (nameRaw, g2) =>
          let field_name := stripQuotes nameRaw
          if ignoredName field_name then acc
          else
            let field_type := pystrip g2
            if isPrefixB "STRUCT".data field_type then
              let r := extractStFuel f field_type
                (some (pp ++ [field_name])) acc.2
              (acc.1 ++ r.1, r.2)
            else (acc.1 ++ [(field_type, pp ++ [field_name])], acc.2)) acc =
      (acc.1 ++ (fields.map (fun field =>
        match fieldMatch field with
        | none => []
        | some (nameRaw, g2) =>
          let field_name := stripQuotes nameRaw
          if ignoredName field_name then []
          else
            let field_type := pystrip g2
            if isPrefixB "STRUCT".data field_type then
              extractFuel f field_type (pp ++ [field_name])
            else [(field_type, pp ++ [field_name])])).flatten, acc.2) := by
  intro fields
  induction fields with
  | nil => intro acc; simp
  | cons field rest ihl =>
    intro acc
    simp only [List.foldl_cons, List.map_cons, List.flatten_cons]
    cases hfm : fieldMatch field with
    | none =>
      rw [ihl]
      simp
    | some nf =>
      obtain ⟨nameRaw, g2⟩ := nf
      simp only []
      by_cases hign : ignoredName (stripQuotes nameRaw) = true
      · simp only [if_pos hign]
        rw [ihl]
        simp
      · simp only [Bool.not_eq_true] at hign
        simp only [hign, Bool.false_eq_true, if_false]
        by_cases hst : isPrefixB "STRUCT".data (pystrip g2) = true
        · simp only [if_pos hst]
          rw [ihf (pystrip g2) (some (pp ++ [stripQuotes nameRaw])) acc.2]
          rw [ihl]
          simp [List.append_assoc]
        · simp only [hst, Bool.false_eq_true, if_false]
          rw [ihl]
          simp [List.append_assoc]

/-- The state-instrumented extractor computes the pure extraction of its
inputs and returns the shared default list unchanged. -/
theorem extractStFuel_spec :
    ∀ (f : Nat) (s : Str) (arg : Option (List Str)) (dflt : List Str),
      extractStFuel f s arg dflt = (extractFuel f s (arg.getD dflt), dflt) := by
  intro f
  induction f with
  | zero => intro s arg dflt; rfl
  | succ f ih =>
    intro s arg dflt
    simp only [extractStFuel, extractFuel]
    cases hm : structMatch (pystrip s) with
    | none => rfl
    | some content =>
      simp only []
      rw [extractSt_fold f ih (arg.getD dflt) (split_top_level_fields content)
        ([], dflt)]
      simp

/-- C9: extraction is a pure function of its inputs despite the mutable
default argument in the source: in the state-instrumented model a call
leaves the shared default list unchanged, returns exactly
`extract_struct_fields` of its inputs, and a second identical call —
threading whatever state the first call left — returns the identical
ordered sequence of (leaf type, path) pairs. -/
theorem claim9_extraction_idempotent
    (s : Str) (arg : Option (List Str)) (dflt : List Str) :
    (extract_run s arg dflt).2 = dflt ∧
    (extract_run s arg ((extract_run s arg dflt).2)).1 =
      (extract_run s arg dflt).1 ∧
    (extract_run s arg dflt).1 = extract_struct_fields s (arg.getD dflt) := by
  have h1 := extractStFuel_spec s.length s arg dflt
  unfold extract_run
  simp [h1, extract_struct_fields]

/-! ## C8: alias uniqueness -/

/-- Fuel-generic form of the path-prefix property. -/
theorem extractFuel_take :
    ∀ (f : Nat) (s : Str) (p₀ : List Str) (t : Str) (q : List Str),
      (t, q) ∈ extractFuel f s p₀ → q.take p₀.length = p₀ := by
  intro f
  induction f with
  | zero =>
    intro s p₀ t q h
    simp only [extractFuel, List.mem_singleton, Prod.mk.injEq] at h
    rw [h.2]
    exact List.take_length _
  | succ f ih =>
    intro s p₀ t q h
    simp only [extractFuel] at h
    cases hm : structMatch (pystrip s) with
    | none =>
      rw [hm] at h
      simp only [List.mem_singleton, Prod.mk.injEq] at h
      rw [h.2]
      exact List.take_length _
    | some content =>
      rw [hm] at h
      simp only [List.mem_flatten, List.mem_map] at h
      obtain ⟨l, ⟨field, hf, hl⟩, hq⟩ := h
      subst hl
      cases hfm : fieldMatch field with
      | none => rw [hfm] at hq; simp at hq
      | some nf =>
        obtain ⟨nameRaw, g2⟩ := nf
        rw [hfm] at hq
        simp only [] at hq
        by_cases hign : ignoredName (stripQuotes nameRaw) = true
        · rw [if_pos hign] at hq; simp at hq
        · simp only [Bool.not_eq_true] at hign
          rw [if_neg (by simp [hign])] at hq
          by_cases hst : isPrefixB "STRUCT".data (pystrip g2) = true
          · rw [if_pos hst] at hq
            have hrec := ih (pystrip g2) (p₀ ++ [stripQuotes nameRaw]) t q hq
            have hsplit : q.take p₀.length =
                (q.take (p₀ ++ [stripQuotes nameRaw]).length).take p₀.length := by
              rw [List.take_take]
              congr 1
              simp only [List.length_append, List.length_cons, List.length_nil]
              omega
            rw [hsplit, hrec]
            exact List.take_left p₀ [stripQuotes nameRaw]
          · rw [if_neg (by simp [hst])] at hq
            simp only [List.mem_singleton, Prod.mk.injEq] at hq
            rw [hq.2]
            exact List.take_left p₀ [stripQuotes nameRaw]

/-- A member of the column group of one parsed sibling field determines
that field's match and carries the field's name at position `p.length` of
its path. -/
theorem mem_group_take (f : Nat) (p : List Str) (field : Str)
    (x : Str × List Str)
    (hx : x ∈ (match fieldMatch field with
      | none => []
      | some (nameRaw, g2) =>
        let field_name := stripQuotes nameRaw
        if ignoredName field_name then []
        else
          let field_type := pystrip g2
          if isPrefixB "STRUCT".data field_type then
            extractFuel f field_type (p ++ [field_name])
          else [(field_type, p ++ [field_name])])) :
    ∃ nameRaw g2, fieldMatch field = some (nameRaw, g2) ∧
      x.2.take (p.length + 1) = p ++ [stripQuotes nameRaw] := by
  cases hfm : fieldMatch field with
  | none => rw [hfm] at hx; simp at hx
  | some nf =>
    obtain ⟨nameRaw, g2⟩ := nf
    rw [hfm] at hx
    simp only [] at hx
    refine ⟨nameRaw, g2, rfl, ?_⟩
    by_cases hign : ignoredName (stripQuotes nameRaw) = true
    · rw [if_pos hign] at hx; simp at hx
    · simp only [Bool.not_eq_true] at hign
      rw [if_neg (by simp [hign])] at hx
      by_cases hst : isPrefixB "STRUCT".data (pystrip g2) = true
      · rw [if_pos hst] at hx
        have := extractFuel_take f (pystrip g2) (p ++ [stripQuotes nameRaw])
          x.1 x.2 (by simpa using hx)
        simpa using this
      · rw [if_neg (by simp [hst])] at hx
        simp only [List.mem_singleton] at hx
        subst hx
        show List.take (p.length + 1) (p ++ [stripQuotes nameRaw]) =
          p ++ [stripQuotes nameRaw]
        have hlen : (p ++ [stripQuotes nameRaw]).length = p.length + 1 := by
          simp
        rw [← hlen, List.take_length]

/-- Per-column path distinctness: under sibling-name distinctness at every
depth, the extracted (type, path) pairs have pairwise distinct paths. -/
theorem extract_pairwise_core :
    ∀ (f : Nat) (s : Str) (p : List Str), siblingsOKFuel f s = true →
      List.Pairwise (fun a b : Str × List Str => a.2 ≠ b.2)
        (extractFuel f s p) := by
  intro f
  induction f with
  | zero => intro s p _; simp [extractFuel]
  | succ f ih =>
    intro s p hsib
    simp only [siblingsOKFuel] at hsib
    simp only [extractFuel]
    cases hm : structMatch (pystrip s) with
    | none => simp
    | some content =>
      rw [hm] at hsib
      simp only [Bool.and_eq_true] at hsib
      obtain ⟨hnames, hall⟩ := hsib
      simp only []
      rw [List.pairwise_flatten]
      constructor
      · intro l hl
        rcases List.mem_map.mp hl with ⟨field, hfield, hGl⟩
        subst hGl
        cases hfm : fieldMatch field with
        | none => simp
        | some nf =>
          obtain ⟨nameRaw, g2⟩ := nf
          simp only []
          by_cases hign : ignoredName (stripQuotes nameRaw) = true
          · simp [hign]
          · simp only [Bool.not_eq_true] at hign
            simp only [hign, Bool.false_eq_true, if_false]
            by_cases hst : isPrefixB "STRUCT".data (pystrip g2) = true
            · simp only [hst, if_true]
              apply ih
              have hsub := List.all_eq_true.mp hall field hfield
              rw [hfm] at hsub
              simp only [] at hsub
              rw [if_pos hst] at hsub
              exact hsub
            · simp [hst]
      · rw [List.pairwise_map]
        have hnp : List.Pairwise (· ≠ ·) (fieldNames content) :=
          allDiff_iff_pairwise.mp hnames
        unfold fieldNames at hnp
        rw [List.pairwise_filterMap] at hnp
        apply List.Pairwise.imp ?_ hnp
        intro fl fl' hrel x hx y hy
        obtain ⟨nr1, g1, hfm1, ht1⟩ := mem_group_take f p fl x hx
        obtain ⟨nr2, g2, hfm2, ht2⟩ := mem_group_take f p fl' y hy
        have hne : stripQuotes nr1 ≠ stripQuotes nr2 := by
          apply hrel
          · rw [hfm1]; simp
          · rw [hfm2]; simp
        intro heq
        rw [heq] at ht1
        rw [ht1] at ht2
        apply hne
        have hd := congrArg (List.drop p.length) ht2
        rw [List.drop_left, List.drop_left] at hd
        simpa using hd

theorem goodSeg_spec {seg : Str} (h : goodSeg seg = true) :
    seg ≠ [] ∧ ∀ c ∈ seg, c ≠ '_' ∧ c ≠ '[' ∧ c ≠ ']' := by
  simp only [goodSeg, Bool.and_eq_true, List.all_eq_true, Bool.not_eq_true',
    List.isEmpty_iff, decide_eq_true_eq] at h
  obtain ⟨h1, h2⟩ := h
  have hne : seg ≠ [] := by
    intro hc
    rw [hc] at h1
    simp at h1
  refine ⟨hne, fun c hc => ?_⟩
  obtain ⟨⟨a, b⟩, d⟩ := h2 c hc
  exact ⟨a, b, d⟩

theorem mem_joinStr {c : Char} {sep : Str} : ∀ {l : List Str},
    c ∈ joinStr sep l → c ∈ sep ∨ ∃ x ∈ l, c ∈ x := by
  intro l
  induction l with
  | nil => intro h; simp [joinStr] at h
  | cons x rest ih =>
    intro h
    cases rest with
    | nil =>
      right
      exact ⟨x, by simp, by simpa [joinStr] using h⟩
    | cons y r =>
      rw [show joinStr sep (x :: y :: r) = x ++ sep ++ joinStr sep (y :: r)
        from rfl] at h
      rcases List.mem_append.mp h with h' | h'
      · rcases List.mem_append.mp h' with h'' | h''
        · right; exact ⟨x, by simp, h''⟩
        · left; exact h''
      · rcases ih h' with h'' | ⟨z, hz, hcz⟩
        · left; exact h''
        · right; exact ⟨z, List.mem_cons_of_mem _ hz, hcz⟩

theorem pyReplace_single_notmem (x : Char) (new : Str) :
    ∀ (s : Str), x ∉ s → pyReplace [x] new s = s := by
  intro s
  unfold pyReplace
  induction s with
  | nil => intro _; rfl
  | cons c rest ih =>
    intro h
    have hxc : x ≠ c := fun hcontra => h (by rw [hcontra]; simp)
    have hpre : isPrefixB [x] (c :: rest) = false := by
      simp [isPrefixB, hxc]
    unfold pyReplaceGo
    rw [if_neg (by rintro ⟨-, hp⟩; rw [hpre] at hp; exact absurd hp (by simp))]
    rw [ih (fun hm => h (List.mem_cons_of_mem _ hm))]

theorem mkAlias_eq_join {p : List Str}
    (hg : ∀ seg ∈ p, goodSeg seg = true)
    (he : isSubstr "_entity_".data (joinStr "_".data p) = false) :
    mkAlias p = joinStr "_".data p := by
  have hnb : ∀ c : Char, (c = '[' ∨ c = ']') → c ∉ joinStr "_".data p := by
    intro c hc hmem
    rcases mem_joinStr hmem with h' | ⟨x, hx, hcx⟩
    · have hcu : c = '_' := by simpa using h'
      rcases hc with hc | hc <;> rw [hc] at hcu <;> exact absurd hcu (by decide)
    · have hspec := (goodSeg_spec (hg x hx)).2 c hcx
      rcases hc with hc | hc
      · exact hspec.2.1 hc
      · exact hspec.2.2 hc
  unfold mkAlias
  simp only []
  rw [pyReplace_single_notmem '[' [] _ (hnb '[' (Or.inl rfl))]
  rw [pyReplace_single_notmem ']' [] _ (hnb ']' (Or.inr rfl))]
  simp [he]

theorem joinStr_takeWhile {s : Str} (rest : List Str)
    (hs : ∀ c ∈ s, c ≠ '_') :
    (joinStr "_".data (s :: rest)).takeWhile (fun c => decide (c ≠ '_')) =
      s := by
  cases rest with
  | nil =>
    exact takeWhile_eq_self_of_all (fun c hc => by simpa using hs c hc)
  | cons y r =>
    show ((s ++ "_".data) ++ joinStr "_".data (y :: r)).takeWhile
        (fun c => decide (c ≠ '_')) = s
    rw [List.append_assoc]
    rw [takeWhile_append_all _ (fun c hc => by simpa using hs c hc)]
    show s ++ List.takeWhile _ ('_' :: joinStr "_".data (y :: r)) = s
    rw [List.takeWhile_cons]
    simp

theorem joinStr_length_lower (s : Str) (y : Str) (r : List Str) :
    (joinStr "_".data (s :: y :: r)).length ≥ s.length + 1 := by
  show ((s ++ "_".data) ++ joinStr "_".data (y :: r)).length ≥ s.length + 1
  simp only [List.length_append, List.length_cons, List.length_nil]
  omega

theorem joinStr_ne_nil {l : List Str}
    (h : ∀ seg ∈ l, goodSeg seg = true) (hl : l ≠ []) :
    joinStr "_".data l ≠ [] := by
  cases l with
  | nil => exact absurd rfl hl
  | cons s rest =>
    have hs := (goodSeg_spec (h s (by simp))).1
    cases rest with
    | nil => simpa [joinStr] using hs
    | cons y r =>
      intro hc
      have hlow := joinStr_length_lower s y r
      rw [hc] at hlow
      simp only [List.length_nil] at hlow
      omega

theorem joinStr_inj : ∀ (p q : List Str),
    (∀ seg ∈ p, goodSeg seg = true) → (∀ seg ∈ q, goodSeg seg = true) →
    joinStr "_".data p = joinStr "_".data q → p = q := by
  intro p
  induction p with
  | nil =>
    intro q hp hq h
    cases q with
    | nil => rfl
    | cons t q' => exact absurd h.symm (joinStr_ne_nil hq (by simp))
  | cons s p' ih =>
    intro q hp hq h
    cases q with
    | nil => exact absurd h (joinStr_ne_nil hp (by simp))
    | cons t q' =>
      have hsg := goodSeg_spec (hp s (by simp))
      have htg := goodSeg_spec (hq t (by simp))
      have hst : s = t := by
        have h1 := joinStr_takeWhile p' (fun c hc => (hsg.2 c hc).1)
        have h2 := joinStr_takeWhile q' (fun c hc => (htg.2 c hc).1)
        rw [← h1, ← h2, h]
      subst hst
      cases p' with
      | nil =>
        cases q' with
        | nil => rfl
        | cons y r =>
          exfalso
          have hlow := joinStr_length_lower s y r
          rw [← h] at hlow
          simp only [joinStr] at hlow
          omega
      | cons y r =>
        cases q' with
        | nil =>
          exfalso
          have hlow := joinStr_length_lower s y r
          rw [h] at hlow
          simp only [joinStr] at hlow
          omega
        | cons y' r' =>
          have hc : s ++ '_' :: joinStr "_".data (y :: r) =
              s ++ '_' :: joinStr "_".data (y' :: r') := by
            have h0 : joinStr "_".data (s :: y :: r) =
                (s ++ "_".data) ++ joinStr "_".data (y :: r) := rfl
            have h0' : joinStr "_".data (s :: y' :: r') =
                (s ++ "_".data) ++ joinStr "_".data (y' :: r') := rfl
            rw [h0, h0'] at h
            simpa [List.append_assoc] using h
          have hJ : joinStr "_".data (y :: r) = joinStr "_".data (y' :: r') := by
            have := List.append_cancel_left hc
            simpa using this
          have := ih (y' :: r')
            (fun seg hs => hp seg (List.mem_cons_of_mem _ hs))
            (fun seg hs => hq seg (List.mem_cons_of_mem _ hs)) hJ
          rw [this]

/-- `leafCols` on a non-`VARCHAR[]` leaf. -/
theorem leafCols_nonarray (disc : Str → Except Unit (List Str))
    (ft : Str) (fp : List Str) (h : ft ≠ "VARCHAR[]".data) :
    leafCols disc ft fp =
      if pathIgnored fp then []
      else [plainCol (build_sql_path fp) (mkAlias fp)] := by
  unfold leafCols
  by_cases hig : pathIgnored fp = true
  · simp [hig]
  · simp only [Bool.not_eq_true] at hig
    rw [if_neg (by simp [hig]), if_neg (by rintro ⟨h1, -⟩; exact h h1),
      if_neg (by simp [hig])]

/-- C8 counterexample: a schema in which no two sibling fields at the same
depth share a name (`b_c` vs `b` at depth one, `c` alone at depth two),
yet underscore-joining collides: the paths `[r, b_c]` and `[r, b, c]` both
produce the alias `r_b_c`, so the generated aliases of one statement are
not pairwise distinct. -/
theorem claim8_counterexample :
    (siblingsOK "STRUCT(b_c VARCHAR, b STRUCT(c VARCHAR))".data = true) ∧
    (allDiffStr ([("r".data,
      "STRUCT(b_c VARCHAR, b STRUCT(c VARCHAR))".data)].map Prod.fst) = true) ∧
    (selectAliases discFail
        [("r".data, "STRUCT(b_c VARCHAR, b STRUCT(c VARCHAR))".data)] =
      ["r_b_c".data, "r_b_c".data]) ∧
    ¬ List.Pairwise (· ≠ ·) (selectAliases discFail
        [("r".data, "STRUCT(b_c VARCHAR, b STRUCT(c VARCHAR))".data)]) :=
  ⟨by decide, by decide, by decide, by decide⟩

/-- C8 amended: alias uniqueness does hold when, in addition to sibling
names being pairwise distinct at every depth (top-level column names
included), the schema is free of the three collision sources exhibited by
the counterexample family: no extracted path segment contains an
underscore or bracket or is empty, no raw alias contains the cosmetic
`_entity_` marker, and no leaf has type `VARCHAR[]` (indicator suffixes
can collide on their own: distinct values such as `+5` and `-5` sanitise
to the same suffix).  Under these conditions all column aliases of one
statement are pairwise distinct. -/
theorem claim8_amended_alias_uniqueness
    (disc : Str → Except Unit (List Str)) (schema : List (Str × Str))
    (hcols : allDiffStr (schema.map Prod.fst) = true)
    (hsib : ∀ nt ∈ schema, siblingsOK nt.2 = true)
    (hgood : ∀ nt ∈ schema, ∀ ftp ∈ extract_struct_fields nt.2 [nt.1],
      (∀ seg ∈ ftp.2, goodSeg seg = true) ∧
      isSubstr "_entity_".data (joinStr "_".data ftp.2) = false ∧
      ftp.1 ≠ "VARCHAR[]".data) :
    List.Pairwise (· ≠ ·) (selectAliases disc schema) := by
  have hAliasNe : ∀ (q q' : List Str),
      (∀ seg ∈ q, goodSeg seg = true) →
      isSubstr "_entity_".data (joinStr "_".data q) = false →
      (∀ seg ∈ q', goodSeg seg = true) →
      isSubstr "_entity_".data (joinStr "_".data q') = false →
      q ≠ q' → mkAlias q ≠ mkAlias q' := by
    intro q q' hg1 he1 hg2 he2 hne heq
    rw [mkAlias_eq_join hg1 he1, mkAlias_eq_join hg2 he2] at heq
    exact hne (joinStr_inj q q' hg1 hg2 heq)
  have hmemCol : ∀ nt ∈ schema,
      ∀ x ∈ (if nt.1 ∈ IGNORE_FIELDS then ([] : List (Str × Str))
        else (extract_struct_fields nt.2 [nt.1]).flatMap
          (fun ftp => leafCols disc ftp.1 ftp.2)),
      ∃ ftp ∈ extract_struct_fields nt.2 [nt.1], x.2 = mkAlias ftp.2 := by
    intro nt hnt x hx
    by_cases hmem : nt.1 ∈ IGNORE_FIELDS
    · rw [if_pos hmem] at hx
      simp at hx
    · rw [if_neg hmem] at hx
      rcases List.mem_flatMap.mp hx with ⟨ftp, hftp, hxl⟩
      have hga := hgood nt hnt ftp hftp
      rw [leafCols_nonarray disc ftp.1 ftp.2 hga.2.2] at hxl
      by_cases hig : pathIgnored ftp.2 = true
      · rw [if_pos hig] at hxl
        simp at hxl
      · simp only [Bool.not_eq_true] at hig
        rw [if_neg (by simp [hig])] at hxl
        simp only [List.mem_singleton] at hxl
        refine ⟨ftp, hftp, ?_⟩
        rw [hxl]
        rfl
  unfold selectAliases
  rw [selectColsLoop_eq, List.pairwise_map, List.pairwise_flatMap]
  constructor
  · intro nt hnt
    by_cases hmem : nt.1 ∈ IGNORE_FIELDS
    · rw [if_pos hmem]
      simp
    · rw [if_neg hmem]
      rw [List.pairwise_flatMap]
      constructor
      · intro ftp hftp
        have hga := hgood nt hnt ftp hftp
        rw [leafCols_nonarray disc ftp.1 ftp.2 hga.2.2]
        by_cases hig : pathIgnored ftp.2 = true
        · simp [hig]
        · simp only [Bool.not_eq_true] at hig
          rw [if_neg (by simp [hig])]
          simp
      · have hpw : List.Pairwise (fun a b : Str × List Str => a.2 ≠ b.2)
            (extract_struct_fields nt.2 [nt.1]) :=
          extract_pairwise_core nt.2.length nt.2 [nt.1] (hsib nt hnt)
        refine List.Pairwise.imp_of_mem ?_ hpw
        intro a b ha hb hne x hx y hy
        have hga := hgood nt hnt a ha
        have hgb := hgood nt hnt b hb
        rw [leafCols_nonarray disc a.1 a.2 hga.2.2] at hx
        rw [leafCols_nonarray disc b.1 b.2 hgb.2.2] at hy
        by_cases higa : pathIgnored a.2 = true
        · rw [if_pos higa] at hx
          simp at hx
        · simp only [Bool.not_eq_true] at higa
          rw [if_neg (by simp [higa])] at hx
          simp only [List.mem_singleton] at hx
          by_cases higb : pathIgnored b.2 = true
          · rw [if_pos higb] at hy
            simp at hy
          · simp only [Bool.not_eq_true] at higb
            rw [if_neg (by simp [higb])] at hy
            simp only [List.mem_singleton] at hy
            rw [hx, hy]
            show mkAlias a.2 ≠ mkAlias b.2
            exact hAliasNe a.2 b.2 hga.1 hga.2.1 hgb.1 hgb.2.1 hne
  · have hcolpw : List.Pairwise (fun nt nt' : Str × Str => nt.1 ≠ nt'.1)
        schema := by
      have h0 := allDiff_iff_pairwise.mp hcols
      rwa [List.pairwise_map] at h0
    refine List.Pairwise.imp_of_mem ?_ hcolpw
    intro nt nt' hnt hnt' hne x hx y hy
    obtain ⟨ftp, hftp, hx2⟩ := hmemCol nt hnt x hx
    obtain ⟨ftp', hftp', hy2⟩ := hmemCol nt' hnt' y hy
    have hga := hgood nt hnt ftp hftp
    have hgb := hgood nt' hnt' ftp' hftp'
    intro heq
    rw [hx2, hy2] at heq
    have hpq : ftp.2 = ftp'.2 := by
      by_contra hc
      exact hAliasNe ftp.2 ftp'.2 hga.1 hga.2.1 hgb.1 hgb.2.1 hc heq
    have h1 := extract_take_core nt.2.length nt.2 [nt.1] ftp.1 ftp.2
      le_rfl (by rw [Prod.mk.eta]; exact hftp)
    have h2 := extract_take_core nt'.2.length nt'.2 [nt'.1] ftp'.1 ftp'.2
      le_rfl (by rw [Prod.mk.eta]; exact hftp')
    rw [hpq] at h1
    simp only [List.length_cons, List.length_nil] at h1 h2
    rw [h1] at h2
    simp only [List.cons.injEq, and_true] at h2
    exact hne h2

/-- Witness for the amended C8 on a concrete schema. -/
theorem claim8_witness :
    ((allDiffStr ([("r".data,
        "STRUCT(a VARCHAR, b STRUCT(c VARCHAR))".data)].map Prod.fst) = true) ∧
      (∀ nt ∈ [("r".data, "STRUCT(a VARCHAR, b STRUCT(c VARCHAR))".data)],
        siblingsOK nt.2 = true) ∧
      (∀ nt ∈ [("r".data, "STRUCT(a VARCHAR, b STRUCT(c VARCHAR))".data)],
        ∀ ftp ∈ extract_struct_fields nt.2 [nt.1],
          (∀ seg ∈ ftp.2, goodSeg seg = true) ∧
          isSubstr "_entity_".data (joinStr "_".data ftp.2) = false ∧
          ftp.1 ≠ "VARCHAR[]".data)) ∧
    List.Pairwise (· ≠ ·) (selectAliases discFail
      [("r".data, "STRUCT(a VARCHAR, b STRUCT(c VARCHAR))".data)]) :=
  ⟨⟨by decide, by decide, by decide⟩,
   claim8_amended_alias_uniqueness discFail
     [("r".data, "STRUCT(a VARCHAR, b STRUCT(c VARCHAR))".data)]
     (by decide) (by decide) (by decide)⟩

end Flattener
